import Mathlib

/-!
# Verification of the fas-rs CPU-frequency governor core

Shallow embedding of the three source files
`src/controller/cpu_common/policy/schedule.rs`,
`src/controller/cpu_common/policy/cycles.rs` and
`src/framework/scheduler/looper/policy/evolution.rs`,
together with proofs of the spec's testable properties.

`Cycles` values are modelled as `Int` (a signed hertz count, matching
`cpu_cycles_reader::Cycles` which wraps an `i64`). Floating-point
computations of the source are modelled over `ℚ`.
-/

namespace FasRs

/-- Type `Cycles` wraps an `i64` hertz count; modelled as `Int`. -/
abbrev Cycles := Int

/-- Constant `const BURST_DEFAULT: usize = 0;` (schedule.rs line 35). -/
def BURST_DEFAULT : Nat := 0

/-- Constant `const BURST_MAX: usize = 2;` (schedule.rs line 36). -/
def BURST_MAX : Nat := 2

/-- Constant `const SMOOTH_COUNT: u8 = 2;` (schedule.rs line 37). -/
def SMOOTH_COUNT : Nat := 2

/-- Rust `f64::round` (round half away from zero), on exact rationals. -/
def rustRound (x : ℚ) : Int :=
  if 0 ≤ x then ⌊x + 1/2⌋ else ⌈x - 1/2⌉

/-- Rust `Ord::clamp` / `f64::clamp` on exact rationals:
`if self < min { min } else if self > max { max } else { self }`. -/
def rustClamp (x lo hi : ℚ) : ℚ :=
  if x < lo then lo else if x > hi then hi else x

/-- The mutable scheduling state of `Schedule` that `run` touches:
the sorted frequency table, the raw position index and the burst counter
(schedule.rs lines 39-50; `table` is set once in `new` and only read
afterwards). -/
structure Schedule where
  table : List Cycles
  pos : Nat
  burst : Nat
  deriving Repr, DecidableEq

/-- Table construction inside `Schedule::new` (schedule.rs lines 62-68):
parse `scaling_available_frequencies` and `sort_unstable` ascending.
Modelled on the already-parsed list of cycle values. -/
def buildTable (freqs : List Cycles) : List Cycles :=
  freqs.insertionSort (· ≤ ·)

/-- Constructor `Schedule::new` state initialisation (schedule.rs lines 74-88):
`burst = BURST_DEFAULT`, `pos = table.len() - 1`. -/
def Schedule.new (freqs : List Cycles) : Schedule :=
  let table := buildTable freqs
  { table := table, pos := table.length - 1, burst := BURST_DEFAULT }

/-- One `Schedule::run(diff)` call (schedule.rs lines 91-123), as a state
transition on `(pos, burst)`.  `targetDiff` and `curCycles` are the values
read from the two shared atomic cells.  `none` models the `assert!` abort
when the clamped target is negative; a `diff < 0` call returns early with
the state unchanged.  (The trailing `smooth_pos`/`write` calls touch only
the smoothing window and the sysfs side effects, modelled separately.) -/
def Schedule.run (s : Schedule) (targetDiff curCycles diff : Cycles) :
    Option Schedule :=
  if diff < 0 then
    some s
  else
    let target := min targetDiff curCycles
    if target < 0 then
      none
    else if target < diff then
      some { s with pos := s.pos - 1, burst := BURST_DEFAULT }
    else if diff < target then
      some { s with pos := min (s.pos + s.burst) (s.table.length - 1),
                    burst := min BURST_MAX (s.burst + 1) }
    else
      some { s with burst := BURST_DEFAULT }

/-- A sequence of `run` calls, each with its own pair of shared-cell values
and its own diff; aborts propagate. -/
def Schedule.runMany (s : Schedule) :
    List (Cycles × Cycles × Cycles) → Option Schedule
  | [] => some s
  | (t, c, d) :: rest => (s.run t c d).bind (fun s' => s'.runMany rest)

/-- Function `Schedule::smoothed_pos` (schedule.rs lines 139-141):
`(self.smooth.peek().round().max(0.0) as usize).min(self.table.len() - 1)`,
as a function of the SMA filter's current output `peek`. -/
def smoothed_pos (peek : ℚ) (tableLen : Nat) : Nat :=
  min (max (rustRound peek) 0).toNat (tableLen - 1)

/-- Function `Schedule::pos_clamp` (schedule.rs lines 154-172).  `max_pos_per` is
the `max_freq_per` percentage read from the node (a `u8`, modelled as
`Nat`); `none` models the `assert!(max_pos_per <= 100)` abort.  The body
computes `(len * per / 100.0).round().clamp(0.0, len) as usize` with
`len = (table.len() - 1) as f64`, then `pos.clamp(0, max_pos)`. -/
def Schedule.pos_clamp (tableLen max_pos_per pos : Nat) : Option Nat :=
  if 100 < max_pos_per then
    none
  else
    let len : ℚ := ((tableLen - 1 : Nat) : ℚ)
    let max_pos : Nat :=
      ⌊rustClamp ((rustRound (len * (max_pos_per : ℚ) / 100) : Int) : ℚ) 0 len⌋.toNat
    some (min (max pos 0) max_pos)

/-! ## The smoothing filters of `cycles.rs`

The `yata` crate implementing `EMA`, `DEMA` and `SMA` is an external
dependency whose source is not part of this repository; the filters are
modelled from the spec. -/

/-- Modelled from the spec: one step of an exponential moving average
(the spec's "exponential" smoothing filter; `yata::methods::EMA` is not
in this repository's sources).  `α = 2 / (window + 1)` is the standard
EMA smoothing factor for a window of length `window`. -/
def emaStep (alpha prev x : ℚ) : ℚ :=
  alpha * x + (1 - alpha) * prev

/-- The `SpecEma` enum of cycles.rs lines 33-38: one of the four
smoothing-filter variants with its mutable state.  Modelled from the
spec for the external yata filter states: `ema` carries the smoothing
factor and current average, `dema` ("double-exponential") carries the two
cascaded EMA states, `sma` carries the window buffer of recent values,
and `none` is the stateless pass-through. -/
inductive SpecEma where
  | ema (alpha : ℚ) (state : ℚ)
  | dema (alpha : ℚ) (s1 s2 : ℚ)
  | sma (window : List ℚ)
  | none
  deriving Repr, DecidableEq

/-- Function `SpecEma::next` (cycles.rs lines 47-54): feed one value to the
filter, returning the updated filter and its output.  Modelled from the
spec: EMA updates its running average; DEMA feeds the first EMA's output
to the second and returns `2·ema1 − ema2`; SMA slides its window and
returns the window mean; `none` passes the value through. -/
def SpecEma.next : SpecEma → ℚ → SpecEma × ℚ
  | .ema a s, x =>
      let s' := emaStep a s x
      (.ema a s', s')
  | .dema a s1 s2, x =>
      let s1' := emaStep a s1 x
      let s2' := emaStep a s2 s1'
      (.dema a s1' s2', 2 * s1' - s2')
  | .sma w, x =>
      let w' := w.tail ++ [x]
      (.sma w', w'.sum / (w'.length : ℚ))
  | .none, x => (.none, x)

/-- Filter construction in `DiffReader::new` (cycles.rs lines 72-78):
each filter is built with window `window` and initial value `0.0`
(SMA's buffer starts filled with the initial value). -/
def SpecEma.fromConfig (emaType : String) (window : Nat) : Option SpecEma :=
  match emaType with
  | "EMA" => some (.ema (2 / ((window : ℚ) + 1)) 0)
  | "DEMA" => some (.dema (2 / ((window : ℚ) + 1)) 0 0)
  | "SMA" => some (.sma (List.replicate window 0))
  | "None" => some .none
  | _ => Option.none

/-- Function `DiffReader::read_diff` (cycles.rs lines 90-114), as a function of
the raw cluster diff produced by `cycles.as_diff(time, cur_freq)`
(cycles.rs line 106; an `i64` hertz count).  The raw diff is clamped by
`.max(0.into())`, fed to the filter, and the filter's output is rounded
back to a `Cycles` value. -/
def DiffReader.read_diff (ema : SpecEma) (rawDiff : Int) : SpecEma × Cycles :=
  let diff : Int := max rawDiff 0
  let next := ema.next ((diff : Int) : ℚ)
  (next.1, rustRound next.2)

/-- A sequence of `read_diff` calls, returning the final filter state and
the list of returned diffs. -/
def DiffReader.readMany (ema : SpecEma) : List Int → SpecEma × List Cycles
  | [] => (ema, [])
  | r :: rs =>
      let step := DiffReader.read_diff ema r
      let rest := DiffReader.readMany step.1 rs
      (rest.1, step.2 :: rest.2)

/-! ## The PID evolution engine of `evolution.rs` -/

/-- Structure `PidParams` (three `f64` PID gains, modelled over `ℚ`). -/
structure PidParams where
  kp : ℚ
  ki : ℚ
  kd : ℚ
  deriving Repr, DecidableEq

/-- Function `mutate_params` (evolution.rs lines 68-75), as a function of the
three sampled perturbations `rkp ∈ [-0.0001, 0.0001)`,
`rki, rkd ∈ [-0.00001, 0.00001)` (taken as arbitrary rationals here):
each gain is perturbed and clamped into its fixed interval. -/
def mutate_params (params : PidParams) (rkp rki rkd : ℚ) : PidParams :=
  { kp := rustClamp (params.kp + rkp) (4/10000) (8/10000),
    ki := rustClamp (params.ki + rki) (15/1000000) (8/100000),
    kd := rustClamp (params.kd + rkd) (5/100000) (8/100000) }

/-- Repeated application of `mutate_params` with a list of perturbation
triples. -/
def mutate_many (params : PidParams) (rs : List (ℚ × ℚ × ℚ)) : PidParams :=
  rs.foldl (fun q r => mutate_params q r.1 r.2.1 r.2.2) params

/-- Function `evaluate_fitness` (evolution.rs lines 77-113).  `target_fps` is
`buffer.target_fps` (an optional fps count), `frametimes` the buffered
frame times in nanoseconds, `margin` the configured margin in
milliseconds, `control_history` the recent signed controller outputs.
Durations are modelled in exact nanoseconds over `ℚ`. -/
def evaluate_fitness (target_fps : Option Nat) (frametimes : List ℚ)
    (margin : Nat) (control_history : List Int) : Option ℚ :=
  match target_fps with
  | Option.none => Option.none
  | Option.some fps =>
    if frametimes.length < fps * 5 ∨ control_history.length < 30 then
      Option.none
    else
      let target : ℚ := 1000000000 + (margin : ℚ) * 1000000
      let fitness_frametime : ℚ :=
        ((frametimes.map (fun ft => (ft * (fps : ℚ) - target) ^ 2)).sum
          / (frametimes.length : ℚ)) * (-1)
      let fitness_control : ℚ :=
        ((control_history.map (fun c => ((c : ℚ)) ^ 2)).sum
          / (control_history.length : ℚ)) * (-1) * (1/100)
      Option.some (fitness_frametime + fitness_control)

/-- Modelled from the spec: the `pid_params` SQLite table (one record per
package-name key, columns `kp, ki, kd`); the SQLite engine behind
`rusqlite` is not part of this repository's sources.  The store is an
association list keyed by package name with at most one record per key. -/
abbrev PidStore := List (String × PidParams)

/-- Function `load_pid_params` (evolution.rs lines 41-53): `SELECT kp, ki, kd FROM
pid_params WHERE id = ?1`; `Option.none` models the not-found query
error. -/
def load_pid_params (db : PidStore) (package_name : String) :
    Option PidParams :=
  (List.find? (fun kv => kv.1 == package_name) db).map Prod.snd

/-- Function `save_pid_params` (evolution.rs lines 55-66): `INSERT ... ON
CONFLICT(id) DO UPDATE SET kp = excluded.kp, ki = excluded.ki,
kd = excluded.kd` — overwrite the record when the key exists, append a
new record otherwise.  Modelled from the spec (SQLite upsert
semantics). -/
def save_pid_params (db : PidStore) (package_name : String)
    (pid_params : PidParams) : PidStore :=
  if List.any db (fun kv => kv.1 == package_name) then
    List.map (fun kv =>
      if kv.1 == package_name then (package_name, pid_params) else kv) db
  else
    db ++ [(package_name, pid_params)]

/-! ## Helper lemmas -/

/-- Rounding a nonnegative rational never yields a negative integer. -/
theorem rustRound_nonneg {x : ℚ} (hx : 0 ≤ x) : 0 ≤ rustRound x := by
  rw [rustRound, if_pos hx]
  have h : (0 : ℚ) ≤ x + 1/2 := by linarith
  exact Int.floor_nonneg.mpr h

/-- Clamping lands in the clamp interval. -/
theorem rustClamp_mem {lo hi : ℚ} (x : ℚ) (h : lo ≤ hi) :
    lo ≤ rustClamp x lo hi ∧ rustClamp x lo hi ≤ hi := by
  unfold rustClamp
  split_ifs with h1 h2
  · exact ⟨le_refl _, h⟩
  · exact ⟨h, le_refl _⟩
  · exact ⟨not_lt.mp h1, not_lt.mp h2⟩

/-- The bounds invariant of the scheduling state (spec section 3,
ScheduleState): the position indexes into the table and the burst counter
is capped by `BURST_MAX`. -/
def Schedule.Inv (s : Schedule) : Prop :=
  s.pos < s.table.length ∧ s.burst ≤ BURST_MAX

/-- A non-aborting `run` call preserves the bounds invariant and never
touches the frequency table. -/
theorem Schedule.run_inv {s s' : Schedule} {t c d : Cycles}
    (hs : s.Inv) (h : s.run t c d = some s') :
    s'.Inv ∧ s'.table = s.table := by
  obtain ⟨hpos, hburst⟩ := hs
  simp only [Schedule.run] at h
  split_ifs at h <;>
    simp only [reduceCtorEq, Option.some.injEq] at h <;> subst h <;>
    refine ⟨⟨?_, ?_⟩, rfl⟩ <;>
    simp only [BURST_DEFAULT, BURST_MAX] at * <;> omega

/-- A non-aborting sequence of `run` calls preserves the bounds invariant
and the table. -/
theorem Schedule.runMany_inv {s s' : Schedule}
    {l : List (Cycles × Cycles × Cycles)}
    (hs : s.Inv) (h : s.runMany l = some s') :
    s'.Inv ∧ s'.table = s.table := by
  induction l generalizing s with
  | nil =>
    simp only [Schedule.runMany, Option.some.injEq] at h
    subst h; exact ⟨hs, rfl⟩
  | cons hd tl ih =>
    obtain ⟨t, c, d⟩ := hd
    simp only [Schedule.runMany, Option.bind_eq_some] at h
    obtain ⟨mid, hmid, hrest⟩ := h
    obtain ⟨hmidInv, hmidTab⟩ := Schedule.run_inv hs hmid
    obtain ⟨hInv, hTab⟩ := ih hmidInv hrest
    exact ⟨hInv, hTab.trans hmidTab⟩

/-- The freshly constructed schedule satisfies the bounds invariant. -/
theorem Schedule.new_inv {freqs : List Cycles} (h : freqs ≠ []) :
    (Schedule.new freqs).Inv := by
  have hlen : (buildTable freqs).length = freqs.length :=
    (List.perm_insertionSort _ freqs).length_eq
  have hpos : 0 < (buildTable freqs).length := by
    rw [hlen]
    exact List.length_pos.mpr h
  constructor
  · show (buildTable freqs).length - 1 < (buildTable freqs).length
    omega
  · exact Nat.zero_le _

/-! ## Claim theorems -/

/-- Claim C1: for every `Schedule::run` call with a non-negative diff
(and a non-negative clamped target, so that the call does not abort), the
state update is decided by the three-way comparison of the clamped
target diff `min t c` against `diff`: below, step the position down by 1
(saturating) and reset burst; above, step the position up by the current
burst clamped to the top index and bump burst capped at `BURST_MAX = 2`;
equal, hold the position and reset burst. -/
theorem c1_run_three_way_comparison (s : Schedule) (t c d : Cycles)
    (hd : 0 ≤ d) (ht : 0 ≤ min t c) :
    BURST_MAX = 2 ∧ BURST_DEFAULT = 0 ∧
    (min t c < d →
      s.run t c d = some { s with pos := s.pos - 1, burst := BURST_DEFAULT }) ∧
    (d < min t c →
      s.run t c d = some { s with
        pos := min (s.pos + s.burst) (s.table.length - 1),
        burst := min BURST_MAX (s.burst + 1) }) ∧
    (min t c = d → s.run t c d = some { s with burst := BURST_DEFAULT }) := by
  have h1 : ¬ d < 0 := not_lt.mpr hd
  have h2 : ¬ min t c < 0 := not_lt.mpr ht
  refine ⟨rfl, rfl, fun h => ?_, fun h => ?_, fun h => ?_⟩
  · simp [Schedule.run, h1, h2, h]
  · simp [Schedule.run, h1, h2, h, not_lt.mpr h.le]
  · simp [Schedule.run, h1, h2, h, lt_irrefl]

/-- Witness for C1 at a concrete state: table `[1000, 1500, 2000]`,
`pos = 2`, `burst = 0`, shared target 800, ceiling 2000, diff 1000. -/
theorem c1_run_three_way_comparison_witness :
    (⟨[1000, 1500, 2000], 2, 0⟩ : Schedule).run 800 2000 1000 =
      some { (⟨[1000, 1500, 2000], 2, 0⟩ : Schedule) with
             pos := 2 - 1, burst := BURST_DEFAULT } :=
  (c1_run_three_way_comparison ⟨[1000, 1500, 2000], 2, 0⟩ 800 2000 1000
    (by decide) (by decide)).2.2.1 (by decide)

/-- Claim C2: after construction and after any non-aborting sequence of
`run` calls (with arbitrary shared-cell values and diffs at each step),
the ScheduleState bounds invariant holds: the position stays in
`[0, len(table) - 1]`, the burst counter stays in `[0, BURST_MAX]`, and
the smoothed position index used by `write` is clamped into
`[0, len(table) - 1]` whatever the smoothing filter outputs. -/
theorem c2_schedule_state_invariant (freqs : List Cycles)
    (inputs : List (Cycles × Cycles × Cycles)) (s' : Schedule)
    (hne : freqs ≠ []) (h : (Schedule.new freqs).runMany inputs = some s') :
    s'.pos ≤ s'.table.length - 1 ∧ s'.burst ≤ BURST_MAX ∧
    (∀ peek : ℚ, smoothed_pos peek s'.table.length ≤ s'.table.length - 1) := by
  obtain ⟨⟨hpos, hburst⟩, _⟩ := Schedule.runMany_inv (Schedule.new_inv hne) h
  exact ⟨by omega, hburst, fun peek => min_le_right _ _⟩

/-- Witness for C2: one `run` call from the freshly built 3-entry
schedule, with headroom (target 1200 against diff 1000). -/
theorem c2_schedule_state_invariant_witness :
    (⟨[1000, 1500, 2000], 2, 1⟩ : Schedule).pos ≤
      (⟨[1000, 1500, 2000], 2, 1⟩ : Schedule).table.length - 1 ∧
    (⟨[1000, 1500, 2000], 2, 1⟩ : Schedule).burst ≤ BURST_MAX ∧
    smoothed_pos (3/2) (⟨[1000, 1500, 2000], 2, 1⟩ : Schedule).table.length ≤
      (⟨[1000, 1500, 2000], 2, 1⟩ : Schedule).table.length - 1 := by
  have h := c2_schedule_state_invariant [1000, 1500, 2000]
    [(1200, 2000, 1000)] ⟨[1000, 1500, 2000], 2, 1⟩ (by decide) (by decide)
  exact ⟨h.1, h.2.1, h.2.2 (3/2)⟩

/-- Claim C4: `run` with non-negative diff first clamps the shared
target to at most the shared `cur_cycles` (the comparison only ever sees
`min t c`), and a negative clamped target is a fatal assertion failure
(modelled as `none`), not a recoverable or clamped-to-zero case. -/
theorem c4_run_clamp_and_abort (s : Schedule) (t c d : Cycles)
    (hd : 0 ≤ d) :
    s.run t c d = s.run (min t c) (min t c) d ∧
    (s.run t c d = none ↔ min t c < 0) := by
  have h1 : ¬ d < 0 := not_lt.mpr hd
  constructor
  · simp [Schedule.run, h1, min_self]
  · rw [Schedule.run]
    simp only [if_neg h1]
    split_ifs with h2 h3 h4 <;> simp [h2]

/-- Witness for C4: a negative shared target with a positive ceiling and
diff 0 aborts. -/
theorem c4_run_clamp_and_abort_witness :
    ((⟨[1000], 0, 0⟩ : Schedule).run (-5) 1000 0 =
      (⟨[1000], 0, 0⟩ : Schedule).run (min (-5) 1000) (min (-5) 1000) 0) ∧
    ((⟨[1000], 0, 0⟩ : Schedule).run (-5) 1000 0 = none ↔
      min (-5 : Int) 1000 < 0) :=
  c4_run_clamp_and_abort ⟨[1000], 0, 0⟩ (-5) 1000 0 (by decide)

/-- A non-aborting `run` call never touches the frequency table
(no write to `self.table` anywhere in schedule.rs after `new`). -/
theorem Schedule.run_table {s s' : Schedule} {t c d : Cycles}
    (h : s.run t c d = some s') : s'.table = s.table := by
  simp only [Schedule.run] at h
  split_ifs at h <;>
    simp only [reduceCtorEq, Option.some.injEq] at h <;> subst h <;> rfl

/-- A non-aborting sequence of `run` calls never touches the table. -/
theorem Schedule.runMany_table {s s' : Schedule}
    {l : List (Cycles × Cycles × Cycles)}
    (h : s.runMany l = some s') : s'.table = s.table := by
  induction l generalizing s with
  | nil =>
    simp only [Schedule.runMany, Option.some.injEq] at h
    subst h; rfl
  | cons hd tl ih =>
    obtain ⟨t, c, d⟩ := hd
    simp only [Schedule.runMany, Option.bind_eq_some] at h
    obtain ⟨mid, hmid, hrest⟩ := h
    exact (ih hrest).trans (Schedule.run_table hmid)

/-- Counterexample to claim C6: construction does not deduplicate, so a
hardware list with a repeated frequency yields a table that is sorted but
not strictly ascending. -/
theorem c6_duplicate_input_counterexample :
    buildTable [1000, 1000] = [1000, 1000] ∧
    ¬ (buildTable [1000, 1000]).Sorted (· < ·) := by
  constructor
  · rfl
  · decide

/-- Claim C6 (amended): after construction from any input list the table
is sorted non-decreasing — strictly ascending whenever the input
frequencies are pairwise distinct — and no `run` call (hence no sequence
of `run` calls) ever modifies it. -/
theorem c6_table_sorted_immutable (freqs : List Cycles) :
    (buildTable freqs).Sorted (· ≤ ·) ∧
    (freqs.Nodup → (buildTable freqs).Sorted (· < ·)) ∧
    (∀ (s s' : Schedule) (t c d : Cycles),
      s.run t c d = some s' → s'.table = s.table) ∧
    (∀ (s s' : Schedule) (l : List (Cycles × Cycles × Cycles)),
      s.runMany l = some s' → s'.table = s.table) := by
  have hsorted : (buildTable freqs).Sorted (· ≤ ·) :=
    List.sorted_insertionSort _ freqs
  refine ⟨hsorted, fun hnd => ?_, ?_, ?_⟩
  · exact hsorted.lt_of_le ((List.perm_insertionSort _ freqs).symm.nodup hnd)
  · exact fun s s' t c d h => Schedule.run_table h
  · exact fun s s' l h => Schedule.runMany_table h

/-- Witness for C6 (amended) on the distinct two-entry input
`[2000, 1000]` and a no-op `run` call. -/
theorem c6_table_sorted_immutable_witness :
    (buildTable [2000, 1000]).Sorted (· ≤ ·) ∧
    (buildTable [2000, 1000]).Sorted (· < ·) ∧
    (⟨[1000], 0, 0⟩ : Schedule).table = (⟨[1000], 0, 0⟩ : Schedule).table := by
  have h := c6_table_sorted_immutable [2000, 1000]
  exact ⟨h.1, h.2.1 (by decide),
    h.2.2.1 ⟨[1000], 0, 0⟩ ⟨[1000], 0, 0⟩ 1 1 1 (by decide)⟩

/-- The per-gain clamp intervals of `mutate_params` (evolution.rs lines
71-73): kp in `[0.0004, 0.0008]`, ki in `[0.000015, 0.00008]`, kd in
`[0.00005, 0.00008]`. -/
def PidParams.InBounds (p : PidParams) : Prop :=
  4/10000 ≤ p.kp ∧ p.kp ≤ 8/10000 ∧
  15/1000000 ≤ p.ki ∧ p.ki ≤ 8/100000 ∧
  5/100000 ≤ p.kd ∧ p.kd ≤ 8/100000

/-- One `mutate_params` call lands in the clamp intervals, whatever the
input gains and perturbations. -/
theorem mutate_params_inBounds (p : PidParams) (r1 r2 r3 : ℚ) :
    (mutate_params p r1 r2 r3).InBounds := by
  unfold mutate_params PidParams.InBounds
  exact ⟨(rustClamp_mem _ (by norm_num)).1, (rustClamp_mem _ (by norm_num)).2,
    (rustClamp_mem _ (by norm_num)).1, (rustClamp_mem _ (by norm_num)).2,
    (rustClamp_mem _ (by norm_num)).1, (rustClamp_mem _ (by norm_num)).2⟩

/-- Iterated mutation from an in-bounds state stays in bounds. -/
theorem mutate_many_inBounds (rs : List (ℚ × ℚ × ℚ)) (q : PidParams)
    (hq : q.InBounds) : (mutate_many q rs).InBounds := by
  induction rs generalizing q with
  | nil => exact hq
  | cons r rs ih => exact ih _ (mutate_params_inBounds q r.1 r.2.1 r.2.2)

/-- Claim C7: every gain of `mutate_params`' result lies in its own fixed
clamp interval, for every input `PidParams` and every choice of the three
perturbations, and the bound persists under arbitrary repeated
application. -/
theorem c7_mutate_gain_bounds (p : PidParams) (rkp rki rkd : ℚ)
    (rs : List (ℚ × ℚ × ℚ)) (hrs : rs ≠ []) :
    (mutate_params p rkp rki rkd).InBounds ∧ (mutate_many p rs).InBounds := by
  constructor
  · exact mutate_params_inBounds p rkp rki rkd
  · cases rs with
    | nil => exact absurd rfl hrs
    | cons r rs =>
      exact mutate_many_inBounds rs _ (mutate_params_inBounds p r.1 r.2.1 r.2.2)

/-- Witness for C7 at all-zero gains and perturbations. -/
theorem c7_mutate_gain_bounds_witness :
    (mutate_params ⟨0, 0, 0⟩ 0 0 0).InBounds ∧
    (mutate_many ⟨0, 0, 0⟩ [(0, 0, 0)]).InBounds :=
  c7_mutate_gain_bounds ⟨0, 0, 0⟩ 0 0 0 [(0, 0, 0)] (by decide)

/-- Claim C8: with a target fps available, `evaluate_fitness` returns a
score exactly when the frame-time buffer holds at least `5 × target_fps`
samples and the control history holds at least 30 samples. -/
theorem c8_fitness_minimum_samples (fps : Nat) (frametimes : List ℚ)
    (margin : Nat) (control_history : List Int) :
    (evaluate_fitness (some fps) frametimes margin control_history).isSome
      = true ↔
    (5 * fps ≤ frametimes.length ∧ 30 ≤ control_history.length) := by
  rw [evaluate_fitness]
  split_ifs with h
  · simp only [Option.isSome_none, Bool.false_eq_true, false_iff]
    omega
  · simp only [Option.isSome_some, true_iff]
    push_neg at h
    omega

/-- Claim C10: without a target fps, `evaluate_fitness` returns no score
regardless of how much data the buffers hold. -/
theorem c10_fitness_none_without_target_fps (frametimes : List ℚ)
    (margin : Nat) (control_history : List Int) :
    evaluate_fitness Option.none frametimes margin control_history
      = Option.none := rfl

/-- Rounding a value that is at most the integer `L` (and nonnegative)
gives at most `L`. -/
theorem rustRound_le_int {x : ℚ} {L : Int} (hx : 0 ≤ x) (hL : x ≤ (L : ℚ)) :
    rustRound x ≤ L := by
  rw [rustRound, if_pos hx]
  have h : x + 1/2 < ((L + 1 : Int) : ℚ) := by push_cast; linarith
  have h2 : ⌊x + 1/2⌋ < L + 1 := Int.floor_lt.mpr h
  omega

/-- Rounding an integer is the identity (on casts of naturals). -/
theorem rustRound_natCast (n : Nat) : rustRound ((n : ℚ)) = (n : Int) := by
  rw [rustRound, if_pos (by positivity)]
  rw [show ((n : ℚ) + 1/2) = ((n : Int) : ℚ) + 1/2 by push_cast; ring]
  rw [Int.floor_int_add]
  norm_num

/-- The normal-case equation of `pos_clamp`: with a valid percentage and
a nonempty table, the result is the requested index capped at
`round(per/100 * (len - 1))` — the rounded value already lies inside
`[0, len-1]`, so the inner `f64::clamp` is the identity. -/
theorem Schedule.pos_clamp_eq (tableLen per pos : Nat)
    (hlen : 1 ≤ tableLen) (hper : per ≤ 100) :
    Schedule.pos_clamp tableLen per pos =
      some (min pos
        (rustRound ((per : ℚ) / 100 * ((tableLen : ℚ) - 1))).toNat) := by
  have hcast : (((tableLen - 1 : Nat) : ℚ)) = (tableLen : ℚ) - 1 := by
    push_cast [Nat.cast_sub hlen]
    ring
  have hargs : ((tableLen - 1 : Nat) : ℚ) * (per : ℚ) / 100
      = (per : ℚ) / 100 * ((tableLen : ℚ) - 1) := by
    rw [hcast]; ring
  set x : ℚ := ((tableLen - 1 : Nat) : ℚ) * (per : ℚ) / 100 with hx
  have hx0 : 0 ≤ x := by positivity
  have hxle : x ≤ ((tableLen - 1 : Nat) : ℚ) := by
    rw [hx, div_le_iff₀ (by norm_num : (0:ℚ) < 100)]
    have hper' : (per : ℚ) ≤ 100 := by exact_mod_cast hper
    nlinarith [Nat.cast_nonneg (α := ℚ) (tableLen - 1)]
  have hr0 : 0 ≤ rustRound x := rustRound_nonneg hx0
  have hrle : rustRound x ≤ ((tableLen - 1 : Nat) : Int) := by
    refine rustRound_le_int hx0 ?_
    exact_mod_cast hxle
  have hclamp : rustClamp ((rustRound x : Int) : ℚ) 0 ((tableLen - 1 : Nat) : ℚ)
      = ((rustRound x : Int) : ℚ) := by
    rw [rustClamp, if_neg, if_neg]
    · rw [not_lt]
      exact_mod_cast hrle
    · rw [not_lt]
      exact_mod_cast hr0
  rw [Schedule.pos_clamp, if_neg (by omega)]
  simp only [hclamp, Int.floor_intCast, hargs]
  rw [Nat.max_eq_left (Nat.zero_le pos)]

/-- Claim C3: for a valid configured percentage `per ≤ 100` over a
nonempty table, `pos_clamp` returns `min(pos, round(per/100 * (len-1)))`;
at `per = 100` the cap is the top table index, the spec's scenario
(`per = 50`, `len = 5`, requested index 4) clamps to 2, and any
percentage above 100 is a fatal configuration error (`none`) before any
clamping happens. -/
theorem c3_pos_clamp_rounding (tableLen per pos : Nat)
    (hlen : 1 ≤ tableLen) (hper : per ≤ 100) :
    Schedule.pos_clamp tableLen per pos =
      some (min pos
        (rustRound ((per : ℚ) / 100 * ((tableLen : ℚ) - 1))).toNat) ∧
    Schedule.pos_clamp tableLen 100 pos = some (min pos (tableLen - 1)) ∧
    Schedule.pos_clamp 5 50 4 = some 2 ∧
    (∀ per' : Nat, 100 < per' →
      Schedule.pos_clamp tableLen per' pos = none) := by
  refine ⟨Schedule.pos_clamp_eq tableLen per pos hlen hper, ?_, ?_, ?_⟩
  · rw [Schedule.pos_clamp_eq tableLen 100 pos hlen (le_refl 100)]
    have harg : ((100 : Nat) : ℚ) / 100 * ((tableLen : ℚ) - 1)
        = ((tableLen - 1 : Nat) : ℚ) := by
      push_cast [Nat.cast_sub hlen]
      ring
    rw [harg, rustRound_natCast, Int.toNat_natCast]
  · have harg : ((50 : Nat) : ℚ) / 100 * (((5 : Nat) : ℚ) - 1)
        = ((2 : Nat) : ℚ) := by norm_num
    rw [Schedule.pos_clamp_eq 5 50 4 (by norm_num) (by norm_num), harg,
      rustRound_natCast, Int.toNat_natCast]
    rfl
  · intro per' h
    rw [Schedule.pos_clamp, if_pos h]

/-- Witness for C3 at the spec's scenario: table length 5, percentage
50, requested index 4. -/
theorem c3_pos_clamp_rounding_witness :
    Schedule.pos_clamp 5 50 4 =
      some (min 4 (rustRound ((50 : ℚ) / 100 * ((5 : ℚ) - 1))).toNat) ∧
    Schedule.pos_clamp 5 100 4 = some (min 4 (5 - 1)) ∧
    Schedule.pos_clamp 5 50 4 = some 2 ∧
    Schedule.pos_clamp 5 101 4 = none := by
  have h := c3_pos_clamp_rounding 5 50 4 (by decide) (by decide)
  exact ⟨h.1, h.2.1, h.2.2.1, h.2.2.2 101 (by decide)⟩

/-- Nonnegativity invariant of a filter state: EMA with a smoothing
factor in `[0, 1]` and a nonnegative running average; SMA with a
nonnegative window; the pass-through filter.  No DEMA state satisfies it
(DEMA can undershoot below zero on nonnegative inputs). -/
def SpecEma.Nonneg : SpecEma → Prop
  | .ema a s => 0 ≤ a ∧ a ≤ 1 ∧ 0 ≤ s
  | .dema _ _ _ => False
  | .sma w => ∀ x ∈ w, 0 ≤ x
  | .none => True

/-- One `read_diff` step from a nonnegativity-invariant filter returns a
nonnegative diff and preserves the invariant. -/
theorem read_diff_step_nonneg {e : SpecEma} (he : e.Nonneg) (raw : Int) :
    0 ≤ (DiffReader.read_diff e raw).2 ∧
    (DiffReader.read_diff e raw).1.Nonneg := by
  have hx : (0 : ℚ) ≤ ((max raw 0 : Int) : ℚ) := by
    exact_mod_cast le_max_right raw 0
  cases e with
  | ema a s =>
    obtain ⟨ha0, ha1, hs⟩ := he
    have hout : 0 ≤ emaStep a s ((max raw 0 : Int) : ℚ) := by
      unfold emaStep; nlinarith
    exact ⟨rustRound_nonneg hout, ha0, ha1, hout⟩
  | dema a s1 s2 => exact he.elim
  | sma w =>
    have hw : ∀ y ∈ w.tail ++ [((max raw 0 : Int) : ℚ)], 0 ≤ y := by
      intro y hy
      rcases List.mem_append.mp hy with h | h
      · exact he y (List.mem_of_mem_tail h)
      · rw [List.mem_singleton.mp h]; exact hx
    have hout : 0 ≤ (w.tail ++ [((max raw 0 : Int) : ℚ)]).sum /
        (((w.tail ++ [((max raw 0 : Int) : ℚ)]).length : Nat) : ℚ) :=
      div_nonneg (List.sum_nonneg hw) (Nat.cast_nonneg _)
    exact ⟨rustRound_nonneg hout, hw⟩
  | none => exact ⟨rustRound_nonneg hx, trivial⟩

/-- Claim C5 (amended): `read_diff` clamps the raw cluster diff to `≥ 0`
before feeding it to the filter (for every filter variant), and the value
it returns is `≥ 0` for every sequence of raw inputs under the EMA, SMA
and pass-through filters as constructed by `DiffReader::new` — but not
for DEMA (see the counterexample). -/
theorem c5_read_diff_nonneg_except_dema (e : SpecEma) (raws : List Int)
    (he : e.Nonneg) :
    (∀ (e0 : SpecEma) (raw : Int),
      DiffReader.read_diff e0 raw = DiffReader.read_diff e0 (max raw 0)) ∧
    (∀ v ∈ (DiffReader.readMany e raws).2, 0 ≤ v) ∧
    (∀ (ty : String) (w : Nat), 1 ≤ w →
      ty = "EMA" ∨ ty = "SMA" ∨ ty = "None" →
      ∃ e0, SpecEma.fromConfig ty w = some e0 ∧ e0.Nonneg) := by
  refine ⟨?_, ?_, ?_⟩
  · intro e0 raw
    simp only [DiffReader.read_diff, max_assoc, max_self]
  · induction raws generalizing e with
    | nil => intro v hv; simp [DiffReader.readMany] at hv
    | cons r rs ih =>
      intro v hv
      simp only [DiffReader.readMany, List.mem_cons] at hv
      obtain ⟨hstep, hinv⟩ := read_diff_step_nonneg he r
      rcases hv with h | h
      · rw [h]; exact hstep
      · exact ih _ hinv v h
  · intro ty w hw hty
    rcases hty with h | h | h <;> subst h
    · refine ⟨_, rfl, by positivity, ?_, le_refl 0⟩
      rw [div_le_one (by positivity)]
      have : (1 : ℚ) ≤ (w : ℚ) := by exact_mod_cast hw
      linarith
    · refine ⟨_, rfl, fun x hx => ?_⟩
      rw [List.eq_of_mem_replicate hx]
    · exact ⟨_, rfl, trivial⟩

/-- Witness for C5 (amended): the pass-through filter with raw diff −3 is
fed `max (−3) 0`. -/
theorem c5_read_diff_nonneg_except_dema_witness :
    DiffReader.read_diff SpecEma.none (-3)
      = DiffReader.read_diff SpecEma.none (max (-3) 0) :=
  (c5_read_diff_nonneg_except_dema SpecEma.none [] trivial).1
    SpecEma.none (-3)

/-- Counterexample to claim C5 as stated: under the DEMA filter with
window 2 (as built by `DiffReader::new` from `EMA_TYPE = "DEMA"`,
`EMA_WIN = 2`), the raw-diff sequence `[3·10⁹, 0, 0, 0]` makes the fourth
`read_diff` call return −49382716 < 0. -/
theorem c5_dema_negative_counterexample :
    SpecEma.fromConfig ("DEMA") 2 = some (SpecEma.dema (2/3) 0 0) ∧
    (DiffReader.readMany (SpecEma.dema (2/3) 0 0)
        [3000000000, 0, 0, 0]).2
      = [2666666667, 444444444, 0, -49382716] ∧
    (-49382716 : Cycles) < 0 := by
  refine ⟨by norm_num [SpecEma.fromConfig], ?_, by norm_num⟩
  norm_num [DiffReader.readMany, DiffReader.read_diff, SpecEma.next,
    emaStep, rustRound]
  rw [Int.ceil_eq_iff]
  norm_num

/-- Looking the key up after an overwrite finds exactly the overwritten
record. -/
theorem find?_map_overwrite (k : String) (p : PidParams) :
    ∀ db : PidStore, List.any db (fun kv => kv.1 == k) = true →
    List.find? (fun kv => kv.1 == k)
      (List.map (fun kv => if kv.1 == k then (k, p) else kv) db)
      = some (k, p) := by
  intro db
  induction db with
  | nil => intro h; simp at h
  | cons a db ih =>
    intro h
    cases hb : (a.1 == k) with
    | true =>
      simp only [List.map_cons, if_pos hb, List.find?_cons]
      simp
    | false =>
      simp only [List.map_cons, hb, Bool.false_eq_true, if_false,
        List.find?_cons, hb]
      refine ih ?_
      simp only [List.any_cons, hb, Bool.false_or] at h
      exact h

/-- Claim C9: saving then loading the same package key returns exactly
the saved gains, and the save is an upsert — it appends a fresh record
when the key is absent and overwrites the existing record (keeping the
key set unchanged) when the key is present. -/
theorem c9_save_load_roundtrip (db : PidStore) (k : String) (p : PidParams) :
    load_pid_params (save_pid_params db k p) k = some p ∧
    (List.any db (fun kv => kv.1 == k) = false →
      save_pid_params db k p = db ++ [(k, p)]) ∧
    (List.any db (fun kv => kv.1 == k) = true →
      List.map Prod.fst (save_pid_params db k p) = List.map Prod.fst db) := by
  refine ⟨?_, ?_, ?_⟩
  · unfold load_pid_params save_pid_params
    cases hany : List.any db (fun kv => kv.1 == k) with
    | false =>
      rw [if_neg (by simp [hany]), List.find?_append]
      have hnone : List.find? (fun kv => kv.1 == k) db = none :=
        List.find?_eq_none.mpr (List.any_eq_false.mp hany)
      rw [hnone]
      simp
    | true =>
      rw [if_pos rfl, find?_map_overwrite k p db hany]
      rfl
  · intro h
    unfold save_pid_params
    rw [if_neg (by simp [h])]
  · intro h
    unfold save_pid_params
    rw [if_pos h, List.map_map]
    refine List.map_congr_left ?_
    intro kv _
    cases hb : (kv.1 == k) with
    | true => simp [Function.comp, hb, (eq_of_beq hb).symm]
    | false => simp [Function.comp, hb]

/-- Witness for C9: insert into a store that holds one other package,
then read the key back. -/
theorem c9_save_load_roundtrip_witness :
    load_pid_params
      (save_pid_params [("other", ⟨1, 1, 1⟩)] "game" ⟨2, 3, 4⟩) "game"
      = some ⟨2, 3, 4⟩ ∧
    save_pid_params [("other", ⟨1, 1, 1⟩)] "game" ⟨2, 3, 4⟩
      = [("other", ⟨1, 1, 1⟩), ("game", ⟨2, 3, 4⟩)] := by
  have h := c9_save_load_roundtrip [("other", ⟨1, 1, 1⟩)] "game" ⟨2, 3, 4⟩
  exact ⟨h.1, h.2.1 (by decide)⟩

end FasRs
